import Mathlib

/-! Verification of the pruner tool (`src/main.c`): symbol sets, call-graph
reachability closure, declaration selection, and token emission. -/

/-- Modelled from the spec: `set.h` / `set.c` are not among the provided
sources; §4.1 describes a set of symbol names with idempotent insertion,
membership test and union.  Sets are modelled as lists of strings with
idempotent insertion. -/
def set_insert (s : List String) (x : String) : List String :=
  if x ∈ s then s else x :: s

/-- Modelled from the spec: `set.h` membership test (`set_contains`). -/
def set_contains (s : List String) (x : String) : Bool :=
  decide (x ∈ s)

/-- Modelled from the spec: `set.h` union (`set_union` adds every member of
`other` into `s`). -/
def set_union (s other : List String) : List String :=
  other.foldl set_insert s

theorem mem_set_insert {s : List String} {x y : String} :
    y ∈ set_insert s x ↔ y = x ∨ y ∈ s := by
  by_cases h : x ∈ s
  · simp only [set_insert, if_pos h]
    exact ⟨Or.inr, fun hy => hy.elim (fun e => e ▸ h) id⟩
  · simp [set_insert, if_neg h, List.mem_cons]

theorem mem_set_union {o s : List String} {x : String} :
    x ∈ set_union s o ↔ x ∈ s ∨ x ∈ o := by
  induction o generalizing s with
  | nil => simp [set_union]
  | cons c rest ih =>
    have he : set_union s (c :: rest) = set_union (set_insert s c) rest := rfl
    rw [he, ih, mem_set_insert, List.mem_cons]
    tauto

/-- Modelled from the spec: the Call Graph Adapter (`cfg.h` / `cfg.c`, §4.2)
maps a caller name to the list of its callees, where `none` is the UNDEFINED
sentinel for a call to a function with no visible definition. -/
abbrev cfg_t := List (String × List (Option String))

/-- Modelled from the spec: callee lookup of the Call Graph Adapter
(`callees_of`, §4.2). -/
def callees : cfg_t → String → List (Option String)
  | [], _ => []
  | (c, cs) :: rest, s => if c = s then cs else callees rest s

/-- The defined callee names of a caller: the UNDEFINED sentinel is dropped. -/
def calleeNames (g : cfg_t) (s : String) : List String :=
  (callees g s).filterMap id

/-- All distinct symbols occurring in the call graph (callers and callees). -/
def symbols : cfg_t → Finset String
  | [] => ∅
  | (c, cs) :: rest => insert c ((cs.filterMap id).toFinset ∪ symbols rest)

theorem mem_calleeNames {g : cfg_t} {s c : String} :
    c ∈ calleeNames g s ↔ some c ∈ callees g s := by
  simp [calleeNames, List.mem_filterMap]

theorem callee_mem_symbols {g : cfg_t} {s c : String} (h : c ∈ calleeNames g s) :
    c ∈ symbols g := by
  induction g with
  | nil => simp [calleeNames, callees] at h
  | cons p rest ih =>
    obtain ⟨caller, cs⟩ := p
    simp only [calleeNames, callees] at h
    by_cases hc : caller = s
    · rw [if_pos hc] at h
      simp only [symbols, Finset.mem_insert, Finset.mem_union, List.mem_toFinset]
      exact Or.inr (Or.inl h)
    · rw [if_neg hc] at h
      have hm := ih (by simpa [calleeNames] using h)
      simp only [symbols, Finset.mem_insert, Finset.mem_union]
      exact Or.inr (Or.inr hm)

/-- Modelled from the spec: one step of `cfg_visit_callees` (missing `cfg.c`)
composed with the nested visitor of `merge_callees` (src/main.c lines
245-260): every callee in the list is handled in order; the UNDEFINED
sentinel only triggers a warning (no insertion, no recursion); a defined
callee is inserted into the accumulator and recursively visited, except that
a callee already accumulated is a no-op, which is the cycle guard §9
describes (the accumulator doubles as the visited set). -/
def visitList (visit : String → List String → List String) :
    List (Option String) → List String → List String
  | [], acc => acc
  | none :: rest, acc => visitList visit rest acc
  | some c :: rest, acc =>
      visitList visit rest (if c ∈ acc then acc else visit c (set_insert acc c))

/-- Modelled from the spec: the recursive traversal of
`cfg_visit_callees` (missing `cfg.c`), §4.3/§9: starting from a caller,
visit its callees and recurse into each newly accumulated callee's own
callees.  The `fuel` argument bounds the recursion depth; §9 states the
depth is bounded by the number of distinct symbols, which is proved below
(`visitCallees_stable`). -/
def visitCallees (g : cfg_t) : Nat → String → List String → List String
  | 0, _, acc => acc
  | fuel + 1, caller, acc =>
      visitList (fun c a => visitCallees g fuel c a) (callees g caller) acc

theorem visitList_nil (visit : String → List String → List String)
    (acc : List String) : visitList visit [] acc = acc := rfl

theorem visitList_none (visit : String → List String → List String)
    (rest : List (Option String)) (acc : List String) :
    visitList visit (none :: rest) acc = visitList visit rest acc := rfl

theorem visitList_some (visit : String → List String → List String)
    (c : String) (rest : List (Option String)) (acc : List String) :
    visitList visit (some c :: rest) acc
      = visitList visit rest (if c ∈ acc then acc else visit c (set_insert acc c)) := rfl

theorem visitCallees_zero (g : cfg_t) (caller : String) (acc : List String) :
    visitCallees g 0 caller acc = acc := rfl

theorem visitCallees_succ (g : cfg_t) (fuel : Nat) (caller : String) (acc : List String) :
    visitCallees g (fuel + 1) caller acc
      = visitList (fun c a => visitCallees g fuel c a) (callees g caller) acc := rfl

theorem visitList_mono {visit : String → List String → List String}
    (hv : ∀ c a x, x ∈ a → x ∈ visit c a) :
    ∀ (l : List (Option String)) (acc : List String) (x : String),
      x ∈ acc → x ∈ visitList visit l acc := by
  intro l
  induction l with
  | nil => intro acc x hx; exact hx
  | cons hd rest ih =>
    intro acc x hx
    cases hd with
    | none => exact ih acc x hx
    | some c =>
      rw [visitList_some]
      by_cases hc : c ∈ acc
      · rw [if_pos hc]; exact ih acc x hx
      · rw [if_neg hc]
        exact ih _ x (hv c (set_insert acc c) x (mem_set_insert.mpr (Or.inr hx)))

theorem visitCallees_mono (g : cfg_t) :
    ∀ (fuel : Nat) (caller : String) (acc : List String) (x : String),
      x ∈ acc → x ∈ visitCallees g fuel caller acc := by
  intro fuel
  induction fuel with
  | zero => intro caller acc x hx; exact hx
  | succ fuel ih =>
    intro caller acc x hx
    rw [visitCallees_succ]
    exact visitList_mono (fun c a y hy => ih c a y hy) _ acc x hx

/-- The closure predicate of the spec (§8): every defined callee of every
member of `T` is itself in `T`. -/
def CallClosed (g : cfg_t) (T : List String) : Prop :=
  ∀ s ∈ T, ∀ c ∈ calleeNames g s, c ∈ T

instance callClosed_decidable (g : cfg_t) (T : List String) : Decidable (CallClosed g T) :=
  decidable_of_iff (∀ s ∈ T, ∀ c ∈ calleeNames g s, c ∈ T) Iff.rfl

theorem visitList_in_closed {visit : String → List String → List String} {T : List String}
    (hv : ∀ c a, c ∈ T → (∀ y ∈ a, y ∈ T) → ∀ y ∈ visit c (set_insert a c), y ∈ T) :
    ∀ (l : List (Option String)) (acc : List String),
      (∀ c, some c ∈ l → c ∈ T) → (∀ y ∈ acc, y ∈ T) →
      ∀ y ∈ visitList visit l acc, y ∈ T := by
  intro l
  induction l with
  | nil => intro acc _ hacc y hy; exact hacc y hy
  | cons hd rest ih =>
    intro acc hl hacc y hy
    cases hd with
    | none => exact ih acc (fun c hc => hl c (by simp [hc])) hacc y hy
    | some c =>
      rw [visitList_some] at hy
      have hcT : c ∈ T := hl c (by simp)
      by_cases hc : c ∈ acc
      · rw [if_pos hc] at hy
        exact ih acc (fun d hd2 => hl d (by simp [hd2])) hacc y hy
      · rw [if_neg hc] at hy
        exact ih _ (fun d hd2 => hl d (by simp [hd2])) (hv c acc hcT hacc) y hy

theorem visitCallees_in_closed {g : cfg_t} {T : List String} (hT : CallClosed g T) :
    ∀ (fuel : Nat) (caller : String) (acc : List String),
      caller ∈ T → (∀ y ∈ acc, y ∈ T) →
      ∀ y ∈ visitCallees g fuel caller acc, y ∈ T := by
  intro fuel
  induction fuel with
  | zero => intro caller acc _ hacc y hy; exact hacc y hy
  | succ fuel ih =>
    intro caller acc hcaller hacc y hy
    rw [visitCallees_succ] at hy
    refine visitList_in_closed ?_ _ acc ?_ hacc y hy
    · intro c a hcT haT
      refine ih c (set_insert a c) hcT ?_
      intro z hz
      rcases mem_set_insert.mp hz with rfl | hz2
      · exact hcT
      · exact haT z hz2
    · intro c hc
      exact hT caller hcaller c (mem_calleeNames.mpr hc)

/-- Distinct symbols of the graph not yet accumulated: the traversal's
termination measure. -/
def remaining (g : cfg_t) (acc : List String) : Nat :=
  ((symbols g) \ acc.toFinset).card

theorem remaining_le {g : cfg_t} {a b : List String} (h : ∀ x ∈ a, x ∈ b) :
    remaining g b ≤ remaining g a := by
  apply Finset.card_le_card
  apply Finset.sdiff_subset_sdiff (Finset.Subset.refl _)
  intro x hx
  rw [List.mem_toFinset] at hx ⊢
  exact h x hx

theorem remaining_insert_lt {g : cfg_t} {c : String} {a : List String}
    (hc : c ∈ symbols g) (hna : c ∉ a) :
    remaining g (set_insert a c) < remaining g a := by
  have he : set_insert a c = c :: a := by simp [set_insert, hna]
  have hsub : symbols g \ (c :: a).toFinset ⊆ symbols g \ a.toFinset := by
    apply Finset.sdiff_subset_sdiff (Finset.Subset.refl _)
    intro x hx
    rw [List.mem_toFinset] at hx ⊢
    exact List.mem_cons_of_mem c hx
  unfold remaining
  rw [he]
  apply Finset.card_lt_card
  rw [Finset.ssubset_iff_of_subset hsub]
  refine ⟨c, Finset.mem_sdiff.mpr ⟨hc, by simpa [List.mem_toFinset] using hna⟩, ?_⟩
  simp [Finset.mem_sdiff, List.mem_toFinset]

theorem visitList_closed {g : cfg_t} {visit : String → List String → List String} {K : Nat}
    (hmono : ∀ c a x, x ∈ a → x ∈ visit c a)
    (hv : ∀ caller acc, remaining g acc < K →
      ((∀ x ∈ visit caller acc, x ∈ acc ∨ ∀ y ∈ calleeNames g x, y ∈ visit caller acc)
        ∧ ∀ y ∈ calleeNames g caller, y ∈ visit caller acc)) :
    ∀ (l : List (Option String)) (acc : List String),
      (∀ c, some c ∈ l → c ∈ symbols g) → remaining g acc ≤ K →
      (∀ x ∈ visitList visit l acc, x ∈ acc ∨ ∀ y ∈ calleeNames g x, y ∈ visitList visit l acc)
      ∧ (∀ c, some c ∈ l → c ∈ visitList visit l acc) := by
  intro l
  induction l with
  | nil =>
    intro acc _ _
    exact ⟨fun x hx => Or.inl hx, fun c hc => absurd hc (by simp)⟩
  | cons hd rest ih =>
    intro acc hsyms hK
    cases hd with
    | none =>
      obtain ⟨h1, h2⟩ := ih acc (fun c hc => hsyms c (by simp [hc])) hK
      refine ⟨fun x hx => ?_, fun c hc => ?_⟩
      · exact h1 x hx
      · rcases List.mem_cons.mp hc with h | h
        · exact absurd h (by simp)
        · exact h2 c h
    | some c =>
      have hcsym : c ∈ symbols g := hsyms c (by simp)
      by_cases hc : c ∈ acc
      · obtain ⟨h1, h2⟩ := ih acc (fun d hd2 => hsyms d (by simp [hd2])) hK
        constructor
        · intro x hx
          rw [visitList_some, if_pos hc] at hx
          rcases h1 x hx with h | h
          · exact Or.inl h
          · right; intro y hy; rw [visitList_some, if_pos hc]; exact h y hy
        · intro d hd2
          rw [visitList_some, if_pos hc]
          rcases List.mem_cons.mp hd2 with heq | hmem
          · have hdc : d = c := Option.some.inj heq
            rw [hdc]
            exact visitList_mono hmono rest acc c hc
          · exact h2 d hmem
      · have hrem : remaining g (set_insert acc c) < K :=
          lt_of_lt_of_le (remaining_insert_lt hcsym hc) hK
        obtain ⟨hv1, hv2⟩ := hv c (set_insert acc c) hrem
        have hins : ∀ x ∈ set_insert acc c, x ∈ visit c (set_insert acc c) :=
          fun x hx => hmono c _ x hx
        have hsub2 : remaining g (visit c (set_insert acc c)) ≤ K :=
          le_trans (remaining_le (fun x hx => hins x (mem_set_insert.mpr (Or.inr hx)))) hK
        obtain ⟨h1, h2⟩ := ih (visit c (set_insert acc c))
          (fun d hd2 => hsyms d (by simp [hd2])) hsub2
        have hmonoRest : ∀ x ∈ visit c (set_insert acc c),
            x ∈ visitList visit rest (visit c (set_insert acc c)) :=
          fun x hx => visitList_mono hmono rest _ x hx
        constructor
        · intro x hx
          rw [visitList_some, if_neg hc] at hx
          rcases h1 x hx with hxa | hclosed
          · rcases hv1 x hxa with hxi | hcn
            · rcases mem_set_insert.mp hxi with rfl | hxacc
              · right; intro y hy
                rw [visitList_some, if_neg hc]
                exact hmonoRest y (hv2 y hy)
              · exact Or.inl hxacc
            · right; intro y hy
              rw [visitList_some, if_neg hc]
              exact hmonoRest y (hcn y hy)
          · right; intro y hy
            rw [visitList_some, if_neg hc]
            exact hclosed y hy
        · intro d hd2
          rw [visitList_some, if_neg hc]
          rcases List.mem_cons.mp hd2 with heq | hmem
          · have hdc : d = c := Option.some.inj heq
            rw [hdc]
            exact hmonoRest c (hins c (mem_set_insert.mpr (Or.inl rfl)))
          · exact h2 d hmem

theorem visitCallees_closed (g : cfg_t) :
    ∀ (fuel : Nat) (caller : String) (acc : List String), remaining g acc < fuel →
      (∀ x ∈ visitCallees g fuel caller acc,
        x ∈ acc ∨ ∀ y ∈ calleeNames g x, y ∈ visitCallees g fuel caller acc)
      ∧ (∀ y ∈ calleeNames g caller, y ∈ visitCallees g fuel caller acc) := by
  intro fuel
  induction fuel with
  | zero => intro caller acc h; exact absurd h (Nat.not_lt_zero _)
  | succ fuel ih =>
    intro caller acc h
    have hK : remaining g acc ≤ fuel := Nat.lt_succ_iff.mp h
    have hsyms : ∀ c, some c ∈ callees g caller → c ∈ symbols g :=
      fun c hc => callee_mem_symbols (mem_calleeNames.mpr hc)
    obtain ⟨h1, h2⟩ := visitList_closed
      (fun c a x hx => visitCallees_mono g fuel c a x hx)
      (fun c a hr => ih c a hr)
      (callees g caller) acc hsyms hK
    constructor
    · intro x hx
      rw [visitCallees_succ] at hx
      rcases h1 x hx with hxa | hcl
      · exact Or.inl hxa
      · right; intro y hy; rw [visitCallees_succ]; exact hcl y hy
    · intro y hy
      rw [visitCallees_succ]
      exact h2 y (mem_calleeNames.mp hy)

theorem visitList_congr {g : cfg_t} {v1 v2 : String → List String → List String} {K : Nat}
    (hmono : ∀ c a x, x ∈ a → x ∈ v1 c a)
    (hcong : ∀ c a, c ∈ symbols g → c ∉ a → remaining g a ≤ K →
      v1 c (set_insert a c) = v2 c (set_insert a c)) :
    ∀ (l : List (Option String)) (acc : List String),
      (∀ c, some c ∈ l → c ∈ symbols g) → remaining g acc ≤ K →
      visitList v1 l acc = visitList v2 l acc := by
  intro l
  induction l with
  | nil => intro acc _ _; rfl
  | cons hd rest ih =>
    intro acc hsyms hK
    cases hd with
    | none => exact ih acc (fun c hc => hsyms c (by simp [hc])) hK
    | some c =>
      rw [visitList_some, visitList_some]
      by_cases hc : c ∈ acc
      · rw [if_pos hc, if_pos hc]
        exact ih acc (fun d hd2 => hsyms d (by simp [hd2])) hK
      · rw [if_neg hc, if_neg hc]
        have heq : v1 c (set_insert acc c) = v2 c (set_insert acc c) :=
          hcong c acc (hsyms c (by simp)) hc hK
        rw [← heq]
        refine ih _ (fun d hd2 => hsyms d (by simp [hd2])) ?_
        have h1 : ∀ x ∈ acc, x ∈ v1 c (set_insert acc c) :=
          fun x hx => hmono c _ x (mem_set_insert.mpr (Or.inr hx))
        exact le_trans (remaining_le h1) hK

theorem visitCallees_stable (g : cfg_t) :
    ∀ (m n : Nat) (caller : String) (acc : List String),
      remaining g acc < m → remaining g acc < n →
      visitCallees g m caller acc = visitCallees g n caller acc := by
  intro m
  induction m with
  | zero => intro n caller acc h _; exact absurd h (Nat.not_lt_zero _)
  | succ m ih =>
    intro n caller acc hm hn
    cases n with
    | zero => exact absurd hn (Nat.not_lt_zero _)
    | succ n =>
      rw [visitCallees_succ, visitCallees_succ]
      refine visitList_congr (K := min m n)
        (fun c a x hx => visitCallees_mono g m c a x hx)
        ?_ (callees g caller) acc
        (fun c hc => callee_mem_symbols (mem_calleeNames.mpr hc))
        (Nat.le_min.mpr ⟨Nat.lt_succ_iff.mp hm, Nat.lt_succ_iff.mp hn⟩)
      intro c a hcs hca hrem
      refine ih n c (set_insert a c) ?_ ?_
      · exact lt_of_lt_of_le (remaining_insert_lt hcs hca)
          (le_trans hrem (Nat.min_le_left m n))
      · exact lt_of_lt_of_le (remaining_insert_lt hcs hca)
          (le_trans hrem (Nat.min_le_right m n))

/-- Fuel sufficient for any traversal of `g`: the number of distinct symbols
plus one (§9: depth is bounded by the number of distinct symbols). -/
def closureFuel (g : cfg_t) : Nat := (symbols g).card + 1

theorem remaining_lt_closureFuel (g : cfg_t) (acc : List String) :
    remaining g acc < closureFuel g :=
  Nat.lt_succ_of_le (Finset.card_le_card (Finset.sdiff_subset))

/-- Modelled from the spec: `merge_callees` (src/main.c lines 234-278) with
an explicit depth bound.  A fresh accumulator (`callees` in the C code)
starts empty; every member of the keep-set is traversed in turn, sharing the
accumulator; finally the accumulator is unioned into the keep-set. -/
def merge_calleesFuel (fuel : Nat) (keeps : List String) (g : cfg_t) : List String :=
  set_union keeps (keeps.foldl (fun acc caller => visitCallees g fuel caller acc) [])

/-- Modelled from the spec: `merge_callees` (src/main.c lines 234-278), run
with the sufficient depth bound `closureFuel`. -/
def merge_callees (keeps : List String) (g : cfg_t) : List String :=
  merge_calleesFuel (closureFuel g) keeps g

theorem closure_fold_spec (g : cfg_t) :
    ∀ (callers : List String) (acc : List String),
      (∀ x ∈ acc, x ∈ callers.foldl (fun a caller => visitCallees g (closureFuel g) caller a) acc)
      ∧ (∀ x ∈ callers.foldl (fun a caller => visitCallees g (closureFuel g) caller a) acc,
          x ∈ acc ∨ ∀ y ∈ calleeNames g x,
            y ∈ callers.foldl (fun a caller => visitCallees g (closureFuel g) caller a) acc)
      ∧ (∀ s ∈ callers, ∀ y ∈ calleeNames g s,
          y ∈ callers.foldl (fun a caller => visitCallees g (closureFuel g) caller a) acc) := by
  intro callers
  induction callers with
  | nil =>
    intro acc
    exact ⟨fun x hx => hx, fun x hx => Or.inl hx, fun s hs => absurd hs (List.not_mem_nil s)⟩
  | cons cHead rest ih =>
    intro acc
    have hlt : remaining g acc < closureFuel g := remaining_lt_closureFuel g acc
    obtain ⟨hA, hB⟩ := visitCallees_closed g (closureFuel g) cHead acc hlt
    obtain ⟨ih1, ih2, ih3⟩ := ih (visitCallees g (closureFuel g) cHead acc)
    have hfold : (cHead :: rest).foldl (fun a caller => visitCallees g (closureFuel g) caller a) acc
        = rest.foldl (fun a caller => visitCallees g (closureFuel g) caller a)
            (visitCallees g (closureFuel g) cHead acc) := rfl
    rw [hfold]
    refine ⟨?_, ?_, ?_⟩
    · intro x hx
      exact ih1 x (visitCallees_mono g (closureFuel g) cHead acc x hx)
    · intro x hx
      rcases ih2 x hx with hxa | hcl
      · rcases hA x hxa with hxacc | hcl2
        · exact Or.inl hxacc
        · right; intro y hy; exact ih1 y (hcl2 y hy)
      · exact Or.inr hcl
    · intro s hs
      rcases List.mem_cons.mp hs with hdc | hs2
      · rw [hdc]; intro y hy; exact ih1 y (hB y hy)
      · exact ih3 s hs2

theorem closure_fold_minimal {g : cfg_t} {T : List String} (hT : CallClosed g T) :
    ∀ (callers : List String) (acc : List String),
      (∀ s ∈ callers, s ∈ T) → (∀ x ∈ acc, x ∈ T) →
      ∀ x ∈ callers.foldl (fun a caller => visitCallees g (closureFuel g) caller a) acc, x ∈ T := by
  intro callers
  induction callers with
  | nil => intro acc _ hacc x hx; exact hacc x hx
  | cons cHead rest ih =>
    intro acc hcallers hacc x hx
    have h1 : ∀ y ∈ visitCallees g (closureFuel g) cHead acc, y ∈ T :=
      visitCallees_in_closed hT (closureFuel g) cHead acc (hcallers cHead (by simp)) hacc
    exact ih _ (fun s hs => hcallers s (by simp [hs])) h1 x hx

theorem closure_fold_fuel {g : cfg_t} {fuel : Nat} (h : closureFuel g ≤ fuel) :
    ∀ (callers : List String) (acc : List String),
      callers.foldl (fun a caller => visitCallees g fuel caller a) acc
        = callers.foldl (fun a caller => visitCallees g (closureFuel g) caller a) acc := by
  intro callers
  induction callers with
  | nil => intro acc; rfl
  | cons cHead rest ih =>
    intro acc
    have hlt : remaining g acc < closureFuel g := remaining_lt_closureFuel g acc
    have heq : visitCallees g fuel cHead acc = visitCallees g (closureFuel g) cHead acc :=
      visitCallees_stable g fuel (closureFuel g) cHead acc (lt_of_lt_of_le hlt h) hlt
    rw [List.foldl_cons, List.foldl_cons, heq]
    exact ih _

theorem merge_callees_superset (g : cfg_t) (K : List String) :
    ∀ x ∈ K, x ∈ merge_callees K g := by
  intro x hx
  unfold merge_callees merge_calleesFuel
  exact mem_set_union.mpr (Or.inl hx)

theorem merge_callees_closed (g : cfg_t) (K : List String) :
    CallClosed g (merge_callees K g) := by
  intro s hs c hc
  unfold merge_callees merge_calleesFuel at hs ⊢
  obtain ⟨h1, h2, h3⟩ := closure_fold_spec g K []
  rcases mem_set_union.mp hs with hK | hA
  · exact mem_set_union.mpr (Or.inr (h3 s hK c hc))
  · rcases h2 s hA with habs | hcl
    · exact absurd habs (List.not_mem_nil s)
    · exact mem_set_union.mpr (Or.inr (hcl c hc))

theorem merge_callees_minimal {g : cfg_t} {K T : List String}
    (hKT : ∀ x ∈ K, x ∈ T) (hT : CallClosed g T) :
    ∀ x ∈ merge_callees K g, x ∈ T := by
  intro x hx
  unfold merge_callees merge_calleesFuel at hx
  rcases mem_set_union.mp hx with hK | hA
  · exact hKT x hK
  · exact closure_fold_minimal hT K [] hKT (fun y hy => absurd hy (List.not_mem_nil y)) x hA

/-- The cursor kinds distinguished by src/main.c.  `OtherDecl` stands for
every remaining libclang cursor kind (all handled by the `default` cases). -/
inductive CXCursorKind where
  | FunctionDecl
  | StructDecl
  | UnionDecl
  | EnumDecl
  | TypedefDecl
  | VarDecl
  | OtherDecl
deriving DecidableEq

/-- A top-level declaration as the external front end hands it to the core:
its kind, spelling, whether it is a definition, and the token spellings of
its reported extent (`clang_tokenize` of `clang_getCursorExtent`). -/
structure Cursor where
  kind : CXCursorKind
  spelling : String
  isDefinition : Bool
  tokens : List String
deriving DecidableEq

/-- The spelling of the last token of an extent (`tokens[tokens_sz - 1]` in
src/main.c line 54); the empty string for an empty extent. -/
def lastTok (l : List String) : String := (l.getLast?).getD ""

/-- Each token on its own line: the output shape of the plain print loop
(src/main.c line 110, `fprintf(stream, "%s\n", token)`). -/
def joinLines : List String → String
  | [] => ""
  | [t] => t ++ "\n"
  | t :: t2 :: ts => t ++ "\n" ++ joinLines (t2 :: ts)

/-- The token print loop of `emit` (src/main.c lines 96-112): each token on
its own line, except that the final token of a typedef whose spelling is the
attribute keyword is replaced by a bare "; ". -/
def renderTokens (kind : CXCursorKind) : List String → String
  | [] => ""
  | [tok] =>
      if kind = CXCursorKind.TypedefDecl ∧ tok = "__attribute__" then "; "
      else tok ++ "\n"
  | tok :: t :: ts => (tok ++ "\n") ++ renderTokens kind (t :: ts)

/-- `emit` (src/main.c lines 37-114): returns the text written to the output
stream for one cursor.  An empty token list returns early; a function
definition whose last token is not `}` has that token dropped; a
struct/union/enum whose last token is neither `;` nor `}` is skipped
entirely; everything else goes to the print loop unchanged. -/
def emit (c : Cursor) : String :=
  match c.tokens with
  | [] => ""
  | t :: ts =>
    match c.kind with
    | CXCursorKind.FunctionDecl =>
        if c.isDefinition ∧ lastTok (t :: ts) ≠ "\x7d" then
          renderTokens c.kind ((t :: ts).dropLast)
        else renderTokens c.kind (t :: ts)
    | CXCursorKind.StructDecl | CXCursorKind.UnionDecl | CXCursorKind.EnumDecl =>
        if lastTok (t :: ts) ≠ ";" ∧ lastTok (t :: ts) ≠ "\x7d" then ""
        else renderTokens c.kind (t :: ts)
    | _ => renderTokens c.kind (t :: ts)

/-- `is_blacklisted` (src/main.c lines 28-34). -/
def is_blacklisted (blacklist : List String) (c : Cursor) : Bool :=
  set_contains blacklist c.spelling

/-- The state threaded through the AST walk (src/main.c lines 117-122);
the translation-unit handle and output stream are implicit in the model. -/
structure state_t where
  keep : List String
  blacklist : List String

/-- `visitor` (src/main.c lines 125-147): returns the text the visitor
contributes for one top-level cursor (empty when the cursor is skipped). -/
def visitor (st : state_t) (c : Cursor) : String :=
  if c.kind = CXCursorKind.FunctionDecl ∧ ¬ set_contains st.keep c.spelling then ""
  else if is_blacklisted st.blacklist c then ""
  else emit c

/-- The processing pipeline of `main` after parsing (src/main.c lines
320-343): close the keep-set over the call graph, then visit every
top-level declaration in order.  Returns the closed keep-set and the
concatenated output. -/
def runPipeline (g : cfg_t) (decls : List Cursor) (keep blacklist : List String) :
    List String × String :=
  let keep2 := merge_callees keep g
  (keep2, (decls.map (fun c => visitor ⟨keep2, blacklist⟩ c)).foldr (fun a b => a ++ b) "")

theorem lastTok_cons_cons (a b : String) (l : List String) :
    lastTok (a :: b :: l) = lastTok (b :: l) := by
  simp [lastTok, List.getLast?_cons_cons]

theorem renderTokens_plain (kind : CXCursorKind) :
    ∀ l : List String, ¬(kind = CXCursorKind.TypedefDecl ∧ lastTok l = "__attribute__") →
      renderTokens kind l = joinLines l := by
  intro l
  induction l with
  | nil => intro _; rfl
  | cons t ts ih =>
    intro h
    cases ts with
    | nil =>
      have hne : ¬(kind = CXCursorKind.TypedefDecl ∧ t = "__attribute__") := by
        simpa [lastTok] using h
      simp [renderTokens, joinLines, hne]
    | cons t2 ts2 =>
      have h2 : ¬(kind = CXCursorKind.TypedefDecl ∧ lastTok (t2 :: ts2) = "__attribute__") := by
        rw [← lastTok_cons_cons t t2 ts2]; exact h
      calc renderTokens kind (t :: t2 :: ts2)
          = (t ++ "\n") ++ renderTokens kind (t2 :: ts2) := rfl
        _ = (t ++ "\n") ++ joinLines (t2 :: ts2) := by rw [ih h2]
        _ = joinLines (t :: t2 :: ts2) := rfl

theorem renderTokens_attr :
    ∀ l : List String, lastTok l = "__attribute__" →
      renderTokens CXCursorKind.TypedefDecl l = joinLines l.dropLast ++ "; " := by
  intro l
  induction l with
  | nil => intro h; exact absurd h (by decide)
  | cons t ts ih =>
    intro h
    cases ts with
    | nil =>
      have ht : t = "__attribute__" := by simpa [lastTok] using h
      simp [renderTokens, ht, joinLines]
    | cons t2 ts2 =>
      rw [lastTok_cons_cons] at h
      have hstep : renderTokens CXCursorKind.TypedefDecl (t :: t2 :: ts2)
          = (t ++ "\n") ++ renderTokens CXCursorKind.TypedefDecl (t2 :: ts2) := rfl
      rw [hstep, ih h]
      have hdrop : (t :: t2 :: ts2).dropLast = t :: (t2 :: ts2).dropLast := rfl
      rw [hdrop]
      cases hcase : (t2 :: ts2).dropLast with
      | nil => simp [joinLines, String.append_assoc]
      | cons u us => simp [joinLines, String.append_assoc]

/-- One entry of the long-option table (src/main.c lines 157-163). -/
structure longoption where
  name : String
  has_arg : Bool
  val : Char

/-- The long-option table `opts` of `parse_args` (src/main.c lines 157-163). -/
def pruner_longopts : List longoption :=
  [⟨"blacklist", true, 'b'⟩, ⟨"help", false, '?'⟩, ⟨"keep", true, 'k'⟩, ⟨"output", true, 'o'⟩]

/-- The short-option string passed to `getopt_long` (src/main.c line 181).
Note that it contains no entry for `b`. -/
def pruner_shortopts : String := "k:o:?"

def findLongopt (name : String) : Option longoption :=
  pruner_longopts.find? (fun lo => lo.name == name)

/-- Look a short option character up in an optstring: `none` when the
character is not an option, `some b` when it is, with `b` true exactly when
a following `:` declares a required argument. -/
def shortArgLookup : List Char → Char → Option Bool
  | [], _ => none
  | x :: rest, c =>
      if x = c then some (match rest with | ':' :: _ => true | _ => false)
      else shortArgLookup rest c

def shortTakesArg (c : Char) : Option Bool :=
  shortArgLookup pruner_shortopts.toList c

/-- Model of the GNU `getopt_long` loop: scans the arguments after the
program name, yielding the option results (`'?'` for an unknown option or a
missing required argument, as `getopt_long` returns) in order together with
the non-option (positional) arguments, which GNU permutation moves to the
end.  Bundled trailing short options are not modelled: with this program's
option string every short option either consumes the rest of its token as
its argument or makes `parse_args` exit, so they are unreachable. -/
def getoptRun : List String → List (Char × Option String) × List String
  | [] => ([], [])
  | a :: rest =>
    match a.toList with
    | '-' :: '-' :: [] => ([], rest)
    | '-' :: '-' :: nameChars =>
      (match findLongopt nameChars.asString with
       | some lo =>
         if lo.has_arg then
           match rest with
           | [] => ([('?', none)], [])
           | v :: rest2 =>
             let r := getoptRun rest2
             ((lo.val, some v) :: r.1, r.2)
         else
           let r := getoptRun rest
           ((lo.val, none) :: r.1, r.2)
       | none =>
         let r := getoptRun rest
         (('?', none) :: r.1, r.2))
    | '-' :: c :: after =>
      (match shortTakesArg c with
       | none =>
         let r := getoptRun rest
         (('?', none) :: r.1, r.2)
       | some true =>
         (match after with
          | [] =>
            (match rest with
             | [] => ([('?', none)], [])
             | v :: rest2 =>
               let r := getoptRun rest2
               ((c, some v) :: r.1, r.2))
          | _ :: _ =>
            let r := getoptRun rest
            ((c, some after.asString) :: r.1, r.2))
       | some false =>
         let r := getoptRun rest
         ((c, none) :: r.1, r.2))
    | _ =>
      let r := getoptRun rest
      (r.1, a :: r.2)

/-- The parsed options (src/main.c lines 149-154); `input` is `none` when no
positional argument was given. -/
structure options_t where
  input : Option String
  output : String
  keep : List String
  blacklist : List String
deriving DecidableEq

/-- The option-dispatch switch of `parse_args` (src/main.c lines 187-212):
`b`, `k` and `o` update the options; `?` (help, unknown option or missing
argument) and anything else take the usage/failure exit path. -/
def applyOpts (o : options_t) : List (Char × Option String) → Option options_t
  | [] => some o
  | (c, arg) :: rest =>
    if c = 'b' then
      applyOpts ⟨o.input, o.output, o.keep, set_insert o.blacklist (arg.getD "")⟩ rest
    else if c = 'k' then
      applyOpts ⟨o.input, o.output, set_insert o.keep (arg.getD ""), o.blacklist⟩ rest
    else if c = 'o' then
      applyOpts ⟨o.input, arg.getD "", o.keep, o.blacklist⟩ rest
    else none

/-- `parse_args` (src/main.c lines 156-229): process options, then demand at
most one positional argument; `none` models the `exit(EXIT_FAILURE)` paths. -/
def parse_args (argv : List String) : Option options_t :=
  match argv with
  | [] => none
  | _prog :: args =>
    match getoptRun args with
    | (entries, positionals) =>
      match applyOpts ⟨none, "/dev/stdout", [], []⟩ entries with
      | none => none
      | some o =>
        match positionals with
        | [] => some o
        | [input] => some ⟨some input, o.output, o.keep, o.blacklist⟩
        | _ => none

theorem emit_nil_eq (kind : CXCursorKind) (sp : String) (d : Bool) :
    emit ⟨kind, sp, d, []⟩ = "" := rfl

theorem emit_function_eq (sp : String) (d : Bool) (t : String) (ts : List String) :
    emit ⟨CXCursorKind.FunctionDecl, sp, d, t :: ts⟩
      = if d ∧ lastTok (t :: ts) ≠ "\x7d" then
          renderTokens CXCursorKind.FunctionDecl ((t :: ts).dropLast)
        else renderTokens CXCursorKind.FunctionDecl (t :: ts) := rfl

theorem emit_typedef_eq (sp : String) (d : Bool) (t : String) (ts : List String) :
    emit ⟨CXCursorKind.TypedefDecl, sp, d, t :: ts⟩
      = renderTokens CXCursorKind.TypedefDecl (t :: ts) := rfl

/-- Example graph: `f` calls `g`, `g` calls nothing. -/
def egGraph : cfg_t := [("f", [some "g"]), ("g", [])]

/-- Example cyclic graph: `f` and `g` call each other. -/
def cycGraph : cfg_t := [("f", [some "g"]), ("g", [some "f"])]

/-- Example function definition whose extent carries the spurious trailing
token described in src/main.c lines 61-66. -/
def egFunction : Cursor :=
  ⟨CXCursorKind.FunctionDecl, "f", true, ["int", "f", "(", ")", "\x7b", "\x7d", "int"]⟩

/-- Example struct fragment with an overlapping-extent last token. -/
def egStruct : Cursor :=
  ⟨CXCursorKind.StructDecl, "foo", false, ["struct", "foo", "\x7b", "int", "x", ";", "\x7d", "foo_t"]⟩

/-- Example typedef with a misparsed trailing attribute keyword. -/
def egTypedefAttr : Cursor :=
  ⟨CXCursorKind.TypedefDecl, "foo_t", false, ["typedef", "int", "foo_t", "__attribute__"]⟩

/-- Example variable declaration. -/
def egVar : Cursor := ⟨CXCursorKind.VarDecl, "x", false, ["int", "x", ";"]⟩

/-- C1: for every call graph and every initial keep-set, `merge_callees`
computes exactly the smallest superset of the keep-set in which every
defined callee (the UNDEFINED sentinel excluded) of every member is itself a
member: the result contains the keep-set, is closed under calls, and is
contained in every closed superset of the keep-set. -/
theorem merge_callees_computes_least_closed_superset (g : cfg_t) (K : List String) :
    (∀ x ∈ K, x ∈ merge_callees K g)
    ∧ CallClosed g (merge_callees K g)
    ∧ ∀ T : List String, (∀ x ∈ K, x ∈ T) → CallClosed g T →
        ∀ x ∈ merge_callees K g, x ∈ T :=
  ⟨merge_callees_superset g K, merge_callees_closed g K,
    fun _ hKT hT => merge_callees_minimal hKT hT⟩

theorem merge_callees_least_closed_witness :
    (∀ x ∈ (["f"] : List String), x ∈ merge_callees ["f"] egGraph)
    ∧ (∀ x ∈ merge_callees ["f"] egGraph, x ∈ (["f", "g"] : List String)) := by
  have h := merge_callees_computes_least_closed_superset egGraph ["f"]
  exact ⟨h.1, h.2.2 ["f", "g"] (by decide) (by decide)⟩

/-- C2: the selector applies its three short-circuiting checks in order: a
function whose spelling is not in the keep-set is skipped; otherwise a
blacklisted spelling (of any kind) is skipped; otherwise the declaration is
emitted.  In particular a non-function declaration is emitted whenever it is
not blacklisted, regardless of the keep-set. -/
theorem visitor_selection_order (keep blacklist : List String) (c : Cursor) :
    (c.kind = CXCursorKind.FunctionDecl → c.spelling ∉ keep →
        visitor ⟨keep, blacklist⟩ c = "")
    ∧ (c.spelling ∈ blacklist → visitor ⟨keep, blacklist⟩ c = "")
    ∧ ((c.kind = CXCursorKind.FunctionDecl → c.spelling ∈ keep) → c.spelling ∉ blacklist →
        visitor ⟨keep, blacklist⟩ c = emit c)
    ∧ (c.kind ≠ CXCursorKind.FunctionDecl → c.spelling ∉ blacklist →
        visitor ⟨keep, blacklist⟩ c = emit c) := by
  refine ⟨?_, ?_, ?_, ?_⟩
  · intro hk hnk
    simp [visitor, set_contains, hk, hnk]
  · intro hb
    simp [visitor, is_blacklisted, set_contains, hb]
  · intro hkeep hnb
    have h2 : ¬(c.kind = CXCursorKind.FunctionDecl ∧ ¬ set_contains keep c.spelling) := by
      rintro ⟨hf, hnk⟩
      exact hnk (by simp [set_contains, hkeep hf])
    simp [visitor, is_blacklisted, set_contains, h2, hnb]
    intro hf hnk
    exact absurd (hkeep hf) hnk
  · intro hknf hnb
    simp [visitor, is_blacklisted, set_contains, hknf, hnb]

theorem visitor_selection_order_witness :
    visitor ⟨[], []⟩ egVar = emit egVar :=
  (visitor_selection_order [] [] egVar).2.2.2 (by decide) (by decide)

/-- C3: the closure computation terminates on every call graph, cyclic ones
included: any traversal depth bound of at least the number of distinct
symbols plus one yields the same keep-set, so the traversal never needs
more depth than the number of distinct symbols. -/
theorem merge_callees_terminates_with_symbol_bound (g : cfg_t) (K : List String)
    (fuel : Nat) (h : closureFuel g ≤ fuel) :
    merge_calleesFuel fuel K g = merge_callees K g := by
  unfold merge_callees merge_calleesFuel
  rw [closure_fold_fuel h K []]

theorem merge_callees_terminates_witness :
    closureFuel cycGraph ≤ 50
    ∧ merge_calleesFuel 50 ["f"] cycGraph = merge_callees ["f"] cycGraph :=
  ⟨by decide, merge_callees_terminates_with_symbol_bound cycGraph ["f"] 50 (by decide)⟩

/-- C4 counterexample: the short option `-b` does not behave like
`--blacklist`.  The short-option string "k:o:?" (src/main.c line 181) has no
entry for `b`, so `-b g input.c` takes the usage/failure exit path while
`--blacklist g input.c` adds `g` to the blacklist. -/
theorem short_b_option_rejected_cex :
    parse_args ["pruner", "-b", "g", "input.c"] = none
    ∧ parse_args ["pruner", "--blacklist", "g", "input.c"]
        = some ⟨some "input.c", "/dev/stdout", [], ["g"]⟩
    ∧ parse_args ["pruner", "-b", "g", "input.c"]
        ≠ parse_args ["pruner", "--blacklist", "g", "input.c"] :=
  ⟨rfl, rfl, by decide⟩

/-- C4 (amended): the long option `--blacklist <symbol>` adds the symbol to
the blacklist, but the short spelling `-b` is not accepted: `b` is absent
from the short-option string passed to `getopt_long`, so `-b` is an unknown
option and argument parsing fails. -/
theorem blacklist_long_option_only (sym : String) :
    parse_args ["pruner", "--blacklist", sym, "input.c"]
      = some ⟨some "input.c", "/dev/stdout", [], [sym]⟩
    ∧ parse_args ["pruner", "-b", sym, "input.c"] = none :=
  ⟨rfl, rfl⟩

/-- C5: for a function definition selected for emission, if the last token
of its extent is not `}` then exactly that token is dropped (the output is
every remaining token, one per line); if the last token is already `}` (the
end-of-file case) no token is dropped. -/
theorem emit_function_definition_drops_last_token (c : Cursor)
    (hk : c.kind = CXCursorKind.FunctionDecl) (hd : c.isDefinition = true) :
    (lastTok c.tokens ≠ "\x7d" → emit c = joinLines c.tokens.dropLast)
    ∧ (lastTok c.tokens = "\x7d" → emit c = joinLines c.tokens) := by
  obtain ⟨kind, sp, isdef, toks⟩ := c
  have hk2 : kind = CXCursorKind.FunctionDecl := hk
  have hd2 : isdef = true := hd
  subst hk2
  subst hd2
  cases toks with
  | nil =>
    refine ⟨fun _ => rfl, fun h => ?_⟩
    have h2 : lastTok ([] : List String) = "\x7d" := h
    exact absurd h2 (by decide)
  | cons t ts =>
    constructor
    · intro hne
      rw [emit_function_eq, if_pos ⟨rfl, hne⟩]
      exact renderTokens_plain _ _ (by simp)
    · intro he
      rw [emit_function_eq, if_neg (by simp [he])]
      exact renderTokens_plain _ _ (by simp)

theorem emit_function_definition_witness :
    lastTok egFunction.tokens ≠ "\x7d"
    ∧ emit egFunction = joinLines egFunction.tokens.dropLast :=
  ⟨by decide, (emit_function_definition_drops_last_token egFunction rfl rfl).1 (by decide)⟩

theorem emit_record_aux (kind : CXCursorKind) (sp : String) (d : Bool) (toks : List String)
    (he : ∀ t ts, emit ⟨kind, sp, d, t :: ts⟩
      = if lastTok (t :: ts) ≠ ";" ∧ lastTok (t :: ts) ≠ "\x7d" then ""
        else renderTokens kind (t :: ts))
    (hkt : kind ≠ CXCursorKind.TypedefDecl) :
    ((lastTok toks ≠ ";" ∧ lastTok toks ≠ "\x7d") → emit ⟨kind, sp, d, toks⟩ = "")
    ∧ ((lastTok toks = ";" ∨ lastTok toks = "\x7d") → emit ⟨kind, sp, d, toks⟩ = joinLines toks) := by
  cases toks with
  | nil => exact ⟨fun _ => rfl, fun _ => rfl⟩
  | cons t ts =>
    constructor
    · intro hcond
      rw [he t ts, if_pos hcond]
    · intro hcond
      rw [he t ts, if_neg (by tauto)]
      exact renderTokens_plain _ _ (by simp [hkt])

/-- C6: for a struct, union or enum declaration selected for emission, if
the last token of its extent is neither `;` nor `}` the emitter writes
nothing (the duplicate/partial sibling fragment); otherwise every token of
the extent is emitted, one per line. -/
theorem emit_record_requires_terminator (c : Cursor)
    (hk : c.kind = CXCursorKind.StructDecl ∨ c.kind = CXCursorKind.UnionDecl
      ∨ c.kind = CXCursorKind.EnumDecl) :
    ((lastTok c.tokens ≠ ";" ∧ lastTok c.tokens ≠ "\x7d") → emit c = "")
    ∧ ((lastTok c.tokens = ";" ∨ lastTok c.tokens = "\x7d") → emit c = joinLines c.tokens) := by
  obtain ⟨kind, sp, isdef, toks⟩ := c
  rcases hk with hk2 | hk2 | hk2
  · have hk3 : kind = CXCursorKind.StructDecl := hk2
    subst hk3
    exact emit_record_aux _ sp isdef toks (fun t ts => rfl) (by decide)
  · have hk3 : kind = CXCursorKind.UnionDecl := hk2
    subst hk3
    exact emit_record_aux _ sp isdef toks (fun t ts => rfl) (by decide)
  · have hk3 : kind = CXCursorKind.EnumDecl := hk2
    subst hk3
    exact emit_record_aux _ sp isdef toks (fun t ts => rfl) (by decide)

theorem emit_record_requires_terminator_witness :
    (lastTok egStruct.tokens ≠ ";" ∧ lastTok egStruct.tokens ≠ "\x7d")
    ∧ emit egStruct = "" := by
  have h := emit_record_requires_terminator egStruct (Or.inl rfl)
  exact ⟨by decide, h.1 (by decide)⟩

/-- C7: a typedef whose extent's last token spells the attribute keyword is
printed with every earlier token on its own line and a bare "; " in place
of that final token; in every other case the print loop prints every token
of the (corrected) list literally, one per line. -/
theorem emit_typedef_attribute_substitution :
    (∀ c : Cursor, c.kind = CXCursorKind.TypedefDecl → lastTok c.tokens = "__attribute__" →
        emit c = joinLines c.tokens.dropLast ++ "; ")
    ∧ (∀ (kind : CXCursorKind) (toks : List String),
        ¬(kind = CXCursorKind.TypedefDecl ∧ lastTok toks = "__attribute__") →
        renderTokens kind toks = joinLines toks) := by
  constructor
  · intro c hk hl
    obtain ⟨kind, sp, isdef, toks⟩ := c
    have hk2 : kind = CXCursorKind.TypedefDecl := hk
    subst hk2
    have hl2 : lastTok toks = "__attribute__" := hl
    cases toks with
    | nil => exact absurd hl2 (by decide)
    | cons t ts =>
      rw [emit_typedef_eq]
      exact renderTokens_attr _ hl2
  · exact fun kind toks h => renderTokens_plain kind toks h

theorem emit_typedef_attribute_witness :
    lastTok egTypedefAttr.tokens = "__attribute__"
    ∧ emit egTypedefAttr = joinLines egTypedefAttr.tokens.dropLast ++ "; " :=
  ⟨by decide, emit_typedef_attribute_substitution.1 egTypedefAttr rfl (by decide)⟩

/-- C8: a declaration whose spelling is in both the closed keep-set and the
blacklist is never emitted: the visitor contributes nothing for it. -/
theorem blacklist_overrides_keep (g : cfg_t) (K B : List String) (c : Cursor)
    (hkm : c.spelling ∈ merge_callees K g) (hbl : c.spelling ∈ B) :
    visitor ⟨merge_callees K g, B⟩ c = "" := by
  simp [visitor, is_blacklisted, set_contains, hkm, hbl]

theorem blacklist_overrides_keep_witness :
    visitor ⟨merge_callees ["f"] egGraph, ["f"]⟩ egFunction = "" :=
  blacklist_overrides_keep egGraph ["f"] ["f"] egFunction (by decide) (by decide)

/-- C9: the closure stage of the pipeline is identical for any two
blacklists: the blacklist is never subtracted from the keep-set before or
during closure, so a blacklisted keep-set member stays in the closed
keep-set and its callees are still added. -/
theorem closure_independent_of_blacklist (g : cfg_t) (decls : List Cursor)
    (K B B2 : List String) :
    (runPipeline g decls K B).1 = (runPipeline g decls K B2).1
    ∧ (∀ b, b ∈ K → b ∈ B → b ∈ (runPipeline g decls K B).1)
    ∧ (∀ b cal, b ∈ (runPipeline g decls K B).1 → b ∈ B → cal ∈ calleeNames g b →
        cal ∈ (runPipeline g decls K B).1) := by
  have hfst : (runPipeline g decls K B).1 = merge_callees K g := rfl
  refine ⟨rfl, ?_, ?_⟩
  · intro b hbK _
    rw [hfst]
    exact merge_callees_superset g K b hbK
  · intro b cal hb _ hcal
    rw [hfst] at hb ⊢
    exact merge_callees_closed g K b hb cal hcal

theorem closure_independent_of_blacklist_witness :
    "g" ∈ (runPipeline egGraph [] ["f"] ["f"]).1 := by
  have h := closure_independent_of_blacklist egGraph [] ["f"] ["f"] ["other"]
  exact h.2.2 "f" "g" (h.2.1 "f" (by decide) (by decide)) (by decide) (by decide)

/-- C10: a declaration whose extent tokenizes to zero tokens produces no
output at all, whatever its kind: `emit` returns before any kind-specific
correction. -/
theorem emit_empty_token_range (c : Cursor) (h : c.tokens = []) : emit c = "" := by
  obtain ⟨kind, sp, isdef, toks⟩ := c
  have h2 : toks = [] := h
  subst h2
  rfl

theorem emit_empty_token_range_witness :
    emit ⟨CXCursorKind.EnumDecl, "e", false, []⟩ = "" :=
  emit_empty_token_range ⟨CXCursorKind.EnumDecl, "e", false, []⟩ rfl

theorem blacklist_long_option_only_witness :
    parse_args ["pruner", "--blacklist", "sym", "input.c"]
      = some ⟨some "input.c", "/dev/stdout", [], ["sym"]⟩
    ∧ parse_args ["pruner", "-b", "sym", "input.c"] = none :=
  blacklist_long_option_only "sym"
